import Mathlib

/-!
A verification development for the difftrace change-impact pipeline
(src/difftrace/diff.py). Python strings are embedded as lists of
characters, Python sets of strings as finite sets (for the accumulated
result) or lists (for the trigger collections, where only membership is
consulted), and resolved absolute filesystem paths as their component
lists. Each definition mirrors the corresponding Python function.
-/

/-- A Python string, embedded as its list of characters. -/
abbrev PStr := List Char

/-- The two attributes of a workspace package consumed by the mapper
(difftrace.graph.WorkspacePackage). -/
structure WorkspacePackage where
  name : PStr
  source_path : PStr
deriving DecidableEq

/-- Default files at the workspace root that trigger testing all packages. -/
def DEFAULT_ROOT_TRIGGERS : List PStr := ["pyproject.toml".toList, "uv.lock".toList]

/-- Default directory path triggers for testing all packages. -/
def DEFAULT_DIR_TRIGGERS : List PStr := [".github/".toList]

/-- Stable insertion of a package into a list sorted by descending
source_path length: the package is placed before the first element whose
source_path is not longer, matching the position Python stable sorting
with key=len and reverse=True assigns to it. -/
def insertByLen (p : WorkspacePackage) : List WorkspacePackage → List WorkspacePackage
  | [] => [p]
  | q :: qs =>
    if q.source_path.length ≤ p.source_path.length then p :: q :: qs
    else q :: insertByLen p qs

/-- The package list sorted by descending source_path length, as a stable
insertion sort; models sorted(packages.values(), key=len of source_path,
reverse=True) over the dict values in insertion order. -/
def sortedPackages (packages : List WorkspacePackage) : List WorkspacePackage :=
  packages.foldr insertByLen []

/-- The per-package test of the attribution loop body: the package is not
the virtual root (source_path "."), and its source_path plus "/" is a
prefix of the file path. -/
def pkgMatches (filepath : PStr) (p : WorkspacePackage) : Bool :=
  (p.source_path != ['.']) && (p.source_path ++ ['/']).isPrefixOf filepath

/-- The attribution scan of map_files_to_packages for one file: the first
package of the sorted list that is not the virtual root and whose
source_path plus "/" is a prefix of the file path (the loop with continue
on "." and break on the first match). -/
def attributeFile (sorted_packages : List WorkspacePackage) (filepath : PStr) :
    Option WorkspacePackage :=
  sorted_packages.find? (pkgMatches filepath)

/-- One iteration of the loop of map_files_to_packages: root triggers are
checked first, then directory triggers (either sets test_all and skips
attribution), otherwise the file is attributed to the first matching
package, if any. -/
def processFile (rts dts : List PStr) (sorted_packages : List WorkspacePackage)
    (acc : Finset PStr × Bool) (filepath : PStr) : Finset PStr × Bool :=
  if filepath ∈ rts then (acc.1, true)
  else if dts.any (fun t => t.isPrefixOf filepath) then (acc.1, true)
  else
    match attributeFile sorted_packages filepath with
    | some pkg => (insert pkg.name acc.1, acc.2)
    | none => acc

/-- map_files_to_packages: maps workspace-relative changed files to the
set of directly changed package names and the test_all flag. A trigger
argument of none means the argument was omitted and the defaults apply. -/
def map_files_to_packages (changed_files : List PStr) (packages : List WorkspacePackage)
    (root_triggers : Option (List PStr)) (dir_triggers : Option (List PStr)) :
    Finset PStr × Bool :=
  let rts := root_triggers.getD DEFAULT_ROOT_TRIGGERS
  let dts := dir_triggers.getD DEFAULT_DIR_TRIGGERS
  changed_files.foldl (processFile rts dts (sortedPackages packages)) (∅, false)

/-- A resolved absolute filesystem path, as its list of components. -/
structure AbsPath where
  components : List PStr
deriving DecidableEq

/-- The string form of a relative path given by a nonempty component
list: components joined by "/"; models str of a pathlib relative path. -/
def joinComps : List PStr → PStr
  | [] => []
  | [c] => c
  | c :: cs => c ++ '/' :: joinComps cs

/-- The per-file body of the loop of relativize_to_workspace: strip the
workspace path followed by "/" when it is a prefix, emit "." when the
file equals the workspace path exactly, drop the file otherwise. -/
def relOne (pws pfxS : PStr) (f : PStr) : Option PStr :=
  if pws.isPrefixOf f then some (f.drop pws.length)
  else if f = pfxS then some ['.']
  else none

/-- relativize_to_workspace: converts git-root-relative paths to
workspace-root-relative paths, dropping files outside the workspace.
Resolution of the two roots is modelled by taking them as already
resolved component lists; relative_to succeeds exactly when the git root
components are a prefix of the workspace root components. -/
def relativize_to_workspace (changed_files : List PStr)
    (git_root workspace_root : AbsPath) : List PStr :=
  if workspace_root = git_root then changed_files
  else if git_root.components.isPrefixOf workspace_root.components then
    let pfxS := joinComps (workspace_root.components.drop git_root.components.length)
    changed_files.filterMap (relOne (pfxS ++ ['/']) pfxS)
  else []

/-- Python str.isspace characters relevant to str.strip. -/
def isPySpace (c : Char) : Bool :=
  c = ' ' || c = '\t' || c = '\n' || c = '\r' || c = '\x0b' || c = '\x0c'

/-- Python str.strip: remove leading and trailing whitespace. -/
def pstrip (s : PStr) : PStr :=
  ((s.dropWhile isPySpace).reverse.dropWhile isPySpace).reverse

/-- Helper of pSplitLines carrying the current line in reverse. -/
def pSplitLinesAux : PStr → PStr → List PStr
  | [], acc => if acc = [] then [] else [acc.reverse]
  | '\r' :: '\n' :: rest, acc => acc.reverse :: pSplitLinesAux rest []
  | '\r' :: rest, acc => acc.reverse :: pSplitLinesAux rest []
  | '\n' :: rest, acc => acc.reverse :: pSplitLinesAux rest []
  | c :: rest, acc => pSplitLinesAux rest (c :: acc)

/-- Python str.splitlines on the usual line boundaries: lines are ended
by a newline, carriage return, or a carriage return and newline pair; a
final unterminated segment is kept only when nonempty. -/
def pSplitLines (s : PStr) : List PStr :=
  pSplitLinesAux s []

/-- The Python substring test: needle in haystack. -/
def pIn (needle hay : PStr) : Bool :=
  hay.tails.any (fun t => needle.isPrefixOf t)

/-- The error taxonomy of the change extractor: an unresolvable base
reference, or any other diff failure, each carrying its message. -/
inductive DiffError where
  | UnresolvableRef (msg : PStr)
  | DiffFailed (msg : PStr)
deriving DecidableEq

/-- The observed outcome of the subprocess invocation of git diff. -/
structure CmdResult where
  returncode : Int
  stdout : PStr
  stderr : PStr

/-- The message of the UnresolvableRef error raised by get_changed_files. -/
def could_not_resolve_msg (base_ref : PStr) : PStr :=
  "Could not resolve ref \x27".toList ++ base_ref ++
    "\x27. Does the branch/ref exist? Try \x27git fetch\x27 or use --base with a valid ref.".toList

/-- The message of the DiffFailed error raised by get_changed_files. -/
def git_diff_failed_msg (se : PStr) : PStr :=
  "git diff failed: ".toList ++ se

/-- get_changed_files, with the subprocess outcome passed in explicitly:
on a nonzero exit, raise UnresolvableRef when the stripped stderr
contains "unknown revision" or "not a git repository", DiffFailed
otherwise; on a zero exit, return the nonblank lines of the stripped
stdout. -/
def get_changed_files (base_ref : PStr) (result : CmdResult) :
    Except DiffError (List PStr) :=
  if result.returncode ≠ 0 then
    let se := pstrip result.stderr
    if pIn "unknown revision".toList se || pIn "not a git repository".toList se then
      .error (.UnresolvableRef (could_not_resolve_msg base_ref))
    else
      .error (.DiffFailed (git_diff_failed_msg se))
  else
    .ok ((pSplitLines (pstrip result.stdout)).filter (fun f => !f.isEmpty))

theorem isPrefixOf_true_iff {α : Type} [BEq α] [LawfulBEq α] {l₁ l₂ : List α} :
    l₁.isPrefixOf l₂ = true ↔ l₁ <+: l₂ :=
  List.isPrefixOf_iff_prefix

theorem pre_iff_eq_append {α : Type} {l₁ l₂ : List α} :
    l₁ <+: l₂ ↔ l₁ ++ l₂.drop l₁.length = l₂ :=
  List.prefix_iff_eq_append

/-- The relation by which the mapper sorts: the source_path of the
second package is at most as long as that of the first. -/
def LenDesc (a b : WorkspacePackage) : Prop :=
  b.source_path.length ≤ a.source_path.length

theorem insertByLen_perm (p : WorkspacePackage) (l : List WorkspacePackage) :
    (insertByLen p l).Perm (p :: l) := by
  induction l with
  | nil => rfl
  | cons q qs ih =>
    by_cases h : q.source_path.length ≤ p.source_path.length
    · simp [insertByLen, h]
    · simp only [insertByLen, if_neg h]
      exact (ih.cons q).trans (List.Perm.swap p q qs)

theorem sortedPackages_perm (ps : List WorkspacePackage) : (sortedPackages ps).Perm ps := by
  induction ps with
  | nil => rfl
  | cons x xs ih => exact (insertByLen_perm x (sortedPackages xs)).trans (ih.cons x)

theorem pairwise_insertByLen {p : WorkspacePackage} {l : List WorkspacePackage}
    (h : l.Pairwise LenDesc) : (insertByLen p l).Pairwise LenDesc := by
  induction l with
  | nil => simp [insertByLen]
  | cons q qs ih =>
    rcases List.pairwise_cons.mp h with ⟨hq, hqs⟩
    by_cases hle : q.source_path.length ≤ p.source_path.length
    · simp only [insertByLen, if_pos hle]
      refine List.pairwise_cons.mpr ⟨?_, h⟩
      intro b hb
      rcases List.mem_cons.mp hb with rfl | hb
      · exact hle
      · exact le_trans (hq _ hb) hle
    · simp only [insertByLen, if_neg hle]
      refine List.pairwise_cons.mpr ⟨?_, ih hqs⟩
      intro b hb
      have hb' : b = p ∨ b ∈ qs := by
        simpa using (insertByLen_perm p qs).mem_iff.mp hb
      rcases hb' with rfl | hb'
      · exact le_of_not_le hle
      · exact hq _ hb'

theorem sortedPackages_pairwise (ps : List WorkspacePackage) :
    (sortedPackages ps).Pairwise LenDesc := by
  induction ps with
  | nil => simp [sortedPackages]
  | cons x xs ih => exact pairwise_insertByLen ih

theorem find?_len_max {pr : WorkspacePackage → Bool} :
    ∀ {l : List WorkspacePackage} {a : WorkspacePackage},
      l.Pairwise LenDesc → l.find? pr = some a →
      ∀ b ∈ l, pr b → b.source_path.length ≤ a.source_path.length := by
  intro l
  induction l with
  | nil => intro a _ h; simp at h
  | cons x xs ih =>
    intro a hp hf b hb hprb
    rcases List.pairwise_cons.mp hp with ⟨hx, hxs⟩
    by_cases hpx : pr x
    · rw [List.find?_cons_of_pos _ hpx] at hf
      injection hf with hf
      subst hf
      rcases List.mem_cons.mp hb with rfl | hb
      · exact le_refl _
      · exact hx b hb
    · rw [List.find?_cons_of_neg _ hpx] at hf
      rcases List.mem_cons.mp hb with rfl | hb
      · exact absurd hprb hpx
      · exact ih hxs hf b hb hprb

theorem attributeFile_mem {ps : List WorkspacePackage} {f : PStr} {p : WorkspacePackage}
    (h : attributeFile (sortedPackages ps) f = some p) : p ∈ ps :=
  (sortedPackages_perm ps).mem_iff.mp (List.mem_of_find?_eq_some h)

theorem attributeFile_matches {so : List WorkspacePackage} {f : PStr} {p : WorkspacePackage}
    (h : attributeFile so f = some p) :
    p.source_path ≠ ['.'] ∧ (p.source_path ++ ['/']) <+: f := by
  have := List.find?_some h
  simpa [pkgMatches] using this

theorem attributeFile_max {ps : List WorkspacePackage} {f : PStr} {p : WorkspacePackage}
    (h : attributeFile (sortedPackages ps) f = some p) :
    ∀ q ∈ ps, q.source_path ≠ ['.'] → (q.source_path ++ ['/']) <+: f →
      q.source_path.length ≤ p.source_path.length := by
  intro q hq hq1 hq2
  refine find?_len_max (sortedPackages_pairwise ps) h q
    ((sortedPackages_perm ps).mem_iff.mpr hq) ?_
  simp [pkgMatches, hq1, hq2]

theorem attributeFile_total {ps : List WorkspacePackage} {f : PStr}
    (h : ∃ q ∈ ps, q.source_path ≠ ['.'] ∧ (q.source_path ++ ['/']) <+: f) :
    ∃ p, attributeFile (sortedPackages ps) f = some p := by
  rcases h with ⟨q, hq, h1, h2⟩
  have hex : ∃ x, x ∈ sortedPackages ps ∧ pkgMatches f x :=
    ⟨q, (sortedPackages_perm ps).mem_iff.mpr hq, by simp [pkgMatches, h1, h2]⟩
  exact Option.isSome_iff_exists.mp (List.find?_isSome.mpr hex)

/-- C1: longest-prefix precedence in package attribution. For every
changed file and package list, the attribution scan only ever returns a
package of the registry that is not the virtual root and whose
source_path plus "/" is a prefix of the file, and that package has
maximal source_path length among all such candidates (descending-length
order with first match); whenever a candidate exists one is chosen; in
the example with packages a at pkg/a and a/sub at pkg/a/sub and changed
file pkg/a/sub/file.py the file is attributed to a/sub and never to a;
and a single file never contributes more than one package name. -/
theorem claim_C1 :
    (∀ (packages : List WorkspacePackage) (f : PStr) (p : WorkspacePackage),
        attributeFile (sortedPackages packages) f = some p →
        p ∈ packages ∧ p.source_path ≠ ['.'] ∧ (p.source_path ++ ['/']) <+: f ∧
          ∀ q ∈ packages, q.source_path ≠ ['.'] → (q.source_path ++ ['/']) <+: f →
            q.source_path.length ≤ p.source_path.length)
    ∧ (∀ (packages : List WorkspacePackage) (f : PStr),
        (∃ q ∈ packages, q.source_path ≠ ['.'] ∧ (q.source_path ++ ['/']) <+: f) →
        ∃ p, attributeFile (sortedPackages packages) f = some p)
    ∧ (map_files_to_packages ["pkg/a/sub/file.py".toList]
        [⟨"a".toList, "pkg/a".toList⟩, ⟨"a/sub".toList, "pkg/a/sub".toList⟩] none none =
          ({"a/sub".toList}, false)
      ∧ "a".toList ∉ (map_files_to_packages ["pkg/a/sub/file.py".toList]
        [⟨"a".toList, "pkg/a".toList⟩, ⟨"a/sub".toList, "pkg/a/sub".toList⟩] none none).1)
    ∧ (∀ (f : PStr) (packages : List WorkspacePackage) (rts dts : Option (List PStr)),
        (map_files_to_packages [f] packages rts dts).1.card ≤ 1) := by
  refine ⟨?_, ?_, ⟨by decide, by decide⟩, ?_⟩
  · intro packages f p h
    exact ⟨attributeFile_mem h, (attributeFile_matches h).1, (attributeFile_matches h).2,
      attributeFile_max h⟩
  · intro packages f h
    exact attributeFile_total h
  · intro f packages rts dts
    show ((processFile _ _ _ (∅, false) f).1).card ≤ 1
    unfold processFile
    by_cases h1 : f ∈ (rts.getD DEFAULT_ROOT_TRIGGERS)
    · simp [h1]
    · by_cases h2 : (dts.getD DEFAULT_DIR_TRIGGERS).any
          (fun t => t.isPrefixOf f)
      · simp [h1, h2]
      · simp only [if_neg h1, if_neg h2]
        cases hA : attributeFile (sortedPackages packages) f with
        | some pkg => simp [hA]
        | none => simp [hA]

/-- Witness for C1: the general attribution facts applied to the example
packages and file of the claim. -/
theorem claim_C1_w :
    (⟨"a/sub".toList, "pkg/a/sub".toList⟩ : WorkspacePackage) ∈
        [(⟨"a".toList, "pkg/a".toList⟩ : WorkspacePackage),
         ⟨"a/sub".toList, "pkg/a/sub".toList⟩] ∧
      ("pkg/a/sub".toList : PStr) ≠ ['.'] ∧
      ("pkg/a/sub".toList ++ ['/'] : PStr) <+: "pkg/a/sub/file.py".toList ∧
      ∀ q ∈ [(⟨"a".toList, "pkg/a".toList⟩ : WorkspacePackage),
             ⟨"a/sub".toList, "pkg/a/sub".toList⟩],
        q.source_path ≠ ['.'] → (q.source_path ++ ['/']) <+: "pkg/a/sub/file.py".toList →
          q.source_path.length ≤ ("pkg/a/sub".toList : PStr).length :=
  claim_C1.1 [⟨"a".toList, "pkg/a".toList⟩, ⟨"a/sub".toList, "pkg/a/sub".toList⟩]
    "pkg/a/sub/file.py".toList ⟨"a/sub".toList, "pkg/a/sub".toList⟩ (by decide)

/-- The trigger condition of the mapper loop for one file: the file is a
root trigger, or some directory trigger is a prefix of its path. -/
def isTrigger (rts dts : List PStr) (f : PStr) : Prop :=
  f ∈ rts ∨ ∃ t ∈ dts, t <+: f

instance (rts dts : List PStr) (f : PStr) : Decidable (isTrigger rts dts f) := by
  unfold isTrigger
  infer_instance

theorem map_eq_foldl (cf : List PStr) (packages : List WorkspacePackage)
    (rts dts : Option (List PStr)) :
    map_files_to_packages cf packages rts dts =
      cf.foldl
        (processFile (rts.getD DEFAULT_ROOT_TRIGGERS) (dts.getD DEFAULT_DIR_TRIGGERS)
          (sortedPackages packages)) (∅, false) :=
  rfl

theorem processFile_trigger {rts dts : List PStr} {f : PStr}
    (so : List WorkspacePackage) (acc : Finset PStr × Bool)
    (h : isTrigger rts dts f) : processFile rts dts so acc f = (acc.1, true) := by
  rcases h with h1 | h2
  · simp [processFile, h1]
  · by_cases hr : f ∈ rts
    · simp [processFile, hr]
    · have hany : dts.any (fun t => t.isPrefixOf f) = true := by
        rw [List.any_eq_true]
        rcases h2 with ⟨t, ht, hp⟩
        exact ⟨t, ht, isPrefixOf_true_iff.mpr hp⟩
      simp [processFile, hr, hany]

theorem processFile_attr {rts dts : List PStr} {f : PStr} {so : List WorkspacePackage}
    {pkg : WorkspacePackage} (acc : Finset PStr × Bool)
    (h : ¬ isTrigger rts dts f) (hA : attributeFile so f = some pkg) :
    processFile rts dts so acc f = (insert pkg.name acc.1, acc.2) := by
  rw [isTrigger, not_or] at h
  have hany : dts.any (fun t => t.isPrefixOf f) = false := by
    rw [List.any_eq_false]
    intro t ht hp
    exact h.2 ⟨t, ht, isPrefixOf_true_iff.mp hp⟩
  simp [processFile, h.1, hany, hA]

theorem processFile_noattr {rts dts : List PStr} {f : PStr} {so : List WorkspacePackage}
    (acc : Finset PStr × Bool)
    (h : ¬ isTrigger rts dts f) (hA : attributeFile so f = none) :
    processFile rts dts so acc f = acc := by
  rw [isTrigger, not_or] at h
  have hany : dts.any (fun t => t.isPrefixOf f) = false := by
    rw [List.any_eq_false]
    intro t ht hp
    exact h.2 ⟨t, ht, isPrefixOf_true_iff.mp hp⟩
  simp [processFile, h.1, hany, hA]

theorem processFile_snd (rts dts : List PStr) (so : List WorkspacePackage)
    (acc : Finset PStr × Bool) (f : PStr) :
    ((processFile rts dts so acc f).2 = true ↔ acc.2 = true ∨ isTrigger rts dts f) := by
  by_cases h : isTrigger rts dts f
  · rw [processFile_trigger so acc h]
    simp [h]
  · cases hA : attributeFile so f with
    | some pkg => rw [processFile_attr acc h hA]; simp [h]
    | none => rw [processFile_noattr acc h hA]; simp [h]

theorem map_foldl_snd (rts dts : List PStr) (so : List WorkspacePackage) :
    ∀ (cf : List PStr) (acc : Finset PStr × Bool),
      ((cf.foldl (processFile rts dts so) acc).2 = true ↔
        acc.2 = true ∨ ∃ f ∈ cf, isTrigger rts dts f) := by
  intro cf
  induction cf with
  | nil => intro acc; simp
  | cons f cf ih =>
    intro acc
    rw [List.foldl_cons, ih, processFile_snd]
    constructor
    · rintro ((hb | htf) | ⟨g, hg, htg⟩)
      · exact Or.inl hb
      · exact Or.inr ⟨f, List.mem_cons_self f cf, htf⟩
      · exact Or.inr ⟨g, List.mem_cons_of_mem f hg, htg⟩
    · rintro (hb | ⟨g, hg, htg⟩)
      · exact Or.inl (Or.inl hb)
      · rcases List.mem_cons.mp hg with rfl | hg
        · exact Or.inl (Or.inr htg)
        · exact Or.inr ⟨g, hg, htg⟩

theorem processFile_fst_snd_indep (rts dts : List PStr) (so : List WorkspacePackage)
    (s : Finset PStr) (b b' : Bool) (f : PStr) :
    (processFile rts dts so (s, b) f).1 = (processFile rts dts so (s, b') f).1 := by
  by_cases h : isTrigger rts dts f
  · rw [processFile_trigger so _ h, processFile_trigger so _ h]
  · cases hA : attributeFile so f with
    | some pkg => rw [processFile_attr _ h hA, processFile_attr _ h hA]
    | none => rw [processFile_noattr _ h hA, processFile_noattr _ h hA]

theorem map_foldl_fst_filter (rts dts : List PStr) (so : List WorkspacePackage) :
    ∀ (cf : List PStr) (s : Finset PStr) (b b' : Bool),
      (cf.foldl (processFile rts dts so) (s, b)).1 =
        ((cf.filter (fun f => !decide (isTrigger rts dts f))).foldl
          (processFile rts dts so) (s, b')).1 := by
  intro cf
  induction cf with
  | nil => intro s b b'; rfl
  | cons f cf ih =>
    intro s b b'
    rw [List.foldl_cons]
    by_cases h : isTrigger rts dts f
    · have hfil : (f :: cf).filter (fun f => !decide (isTrigger rts dts f)) =
          cf.filter (fun f => !decide (isTrigger rts dts f)) := by
        simp [List.filter_cons, h]
      rw [hfil, processFile_trigger so _ h]
      exact ih s true b'
    · have hfil : (f :: cf).filter (fun f => !decide (isTrigger rts dts f)) =
          f :: cf.filter (fun f => !decide (isTrigger rts dts f)) := by
        simp [List.filter_cons, h]
      rw [hfil, List.foldl_cons]
      cases hA : attributeFile so f with
      | some pkg =>
        rw [processFile_attr _ h hA, processFile_attr _ h hA]
        exact ih _ b b'
      | none =>
        rw [processFile_noattr _ h hA, processFile_noattr _ h hA]
        exact ih s b b'

/-- C2: trigger exclusivity. A changed file matching a root trigger or a
directory trigger makes test_all true; the directly-changed set is the
one computed from the non-triggered files alone, so a triggered file
contributes no package name and later files are still scanned; and per
file, a root trigger match is decided before the directory triggers are
consulted, with the iteration returning the unchanged set and a true
flag in both trigger cases. -/
theorem claim_C2 :
    (∀ (cf : List PStr) (packages : List WorkspacePackage)
        (rts dts : Option (List PStr)) (f : PStr),
        f ∈ cf →
        isTrigger (rts.getD DEFAULT_ROOT_TRIGGERS) (dts.getD DEFAULT_DIR_TRIGGERS) f →
        (map_files_to_packages cf packages rts dts).2 = true)
    ∧ (∀ (cf : List PStr) (packages : List WorkspacePackage)
        (rts dts : Option (List PStr)),
        (map_files_to_packages cf packages rts dts).1 =
          (map_files_to_packages
            (cf.filter (fun f =>
              !decide (isTrigger (rts.getD DEFAULT_ROOT_TRIGGERS)
                (dts.getD DEFAULT_DIR_TRIGGERS) f)))
            packages rts dts).1)
    ∧ (∀ (rts dts dts' : List PStr) (so : List WorkspacePackage)
        (acc : Finset PStr × Bool) (f : PStr),
        f ∈ rts →
        processFile rts dts so acc f = (acc.1, true) ∧
          processFile rts dts so acc f = processFile rts dts' so acc f)
    ∧ (∀ (rts dts : List PStr) (so : List WorkspacePackage)
        (acc : Finset PStr × Bool) (f : PStr),
        (∃ t ∈ dts, t <+: f) → processFile rts dts so acc f = (acc.1, true)) := by
  refine ⟨?_, ?_, ?_, ?_⟩
  · intro cf packages rts dts f hf ht
    rw [map_eq_foldl]
    exact (map_foldl_snd _ _ _ cf _).mpr (Or.inr ⟨f, hf, ht⟩)
  · intro cf packages rts dts
    rw [map_eq_foldl, map_eq_foldl]
    exact map_foldl_fst_filter _ _ _ cf ∅ false false
  · intro rts dts dts' so acc f hf
    constructor
    · exact processFile_trigger so acc (Or.inl hf)
    · rw [processFile_trigger so acc (Or.inl hf), processFile_trigger so acc (Or.inl hf)]
  · intro rts dts so acc f h
    exact processFile_trigger so acc (Or.inr h)

/-- Witness for C2: the first conjunct applied to a single changed file
equal to the default root trigger pyproject.toml. -/
theorem claim_C2_w :
    (map_files_to_packages ["pyproject.toml".toList] [] none none).2 = true :=
  claim_C2.1 ["pyproject.toml".toList] [] none none "pyproject.toml".toList
    (by decide) (Or.inl (by decide))

theorem map_foldl_fst_sound (rts dts : List PStr) (so : List WorkspacePackage) :
    ∀ (cf : List PStr) (acc : Finset PStr × Bool) (n : PStr),
      n ∈ (cf.foldl (processFile rts dts so) acc).1 →
      n ∈ acc.1 ∨ ∃ f ∈ cf, ∃ p, attributeFile so f = some p ∧ p.name = n := by
  intro cf
  induction cf with
  | nil => intro acc n h; exact Or.inl h
  | cons f cf ih =>
    intro acc n h
    rw [List.foldl_cons] at h
    rcases ih _ n h with h' | ⟨g, hg, p, hp, hn⟩
    · by_cases ht : isTrigger rts dts f
      · rw [processFile_trigger so acc ht] at h'
        exact Or.inl h'
      · cases hA : attributeFile so f with
        | some pkg =>
          rw [processFile_attr acc ht hA] at h'
          rcases Finset.mem_insert.mp h' with rfl | h'
          · exact Or.inr ⟨f, List.mem_cons_self f cf, pkg, hA, rfl⟩
          · exact Or.inl h'
        | none =>
          rw [processFile_noattr acc ht hA] at h'
          exact Or.inl h'
    · exact Or.inr ⟨g, List.mem_cons_of_mem f hg, p, hp, hn⟩

theorem map_foldl_fst_all_trigger (rts dts : List PStr) (so : List WorkspacePackage) :
    ∀ (cf : List PStr) (acc : Finset PStr × Bool),
      (∀ f ∈ cf, isTrigger rts dts f) →
      (cf.foldl (processFile rts dts so) acc).1 = acc.1 := by
  intro cf
  induction cf with
  | nil => intro acc _; rfl
  | cons f cf ih =>
    intro acc hall
    rw [List.foldl_cons, processFile_trigger so acc (hall f (List.mem_cons_self f cf))]
    exact ih _ (fun g hg => hall g (List.mem_cons_of_mem f hg))

/-- C6: the mixed scenario. With changed files pyproject.toml,
packages/core/src/x.py and packages/web/README.md, packages core at
packages/core and web at packages/web, and default triggers, the mapper
returns the direct set containing core and web together with test_all
true. -/
theorem claim_C6 :
    map_files_to_packages
      ["pyproject.toml".toList, "packages/core/src/x.py".toList,
        "packages/web/README.md".toList]
      [⟨"core".toList, "packages/core".toList⟩, ⟨"web".toList, "packages/web".toList⟩]
      none none = ({"core".toList, "web".toList}, true) := by decide

/-- C7: the virtual root package never receives direct attributions. The
attribution scan never returns a package whose source_path is ".", and
every name in the directly-changed set comes from a package of the
registry whose source_path is not ".". -/
theorem claim_C7 :
    (∀ (so : List WorkspacePackage) (f : PStr) (p : WorkspacePackage),
        attributeFile so f = some p → p.source_path ≠ ['.'])
    ∧ (∀ (cf : List PStr) (packages : List WorkspacePackage)
        (rts dts : Option (List PStr)) (n : PStr),
        n ∈ (map_files_to_packages cf packages rts dts).1 →
        ∃ p ∈ packages, p.name = n ∧ p.source_path ≠ ['.']) := by
  constructor
  · intro so f p h
    exact (attributeFile_matches h).1
  · intro cf packages rts dts n h
    rw [map_eq_foldl] at h
    rcases map_foldl_fst_sound _ _ _ cf _ n h with h' | ⟨f, _, p, hp, hn⟩
    · exact absurd h' (Finset.not_mem_empty n)
    · exact ⟨p, attributeFile_mem hp, hn, (attributeFile_matches hp).1⟩

/-- Witness for C7: the membership conjunct applied to a changed file
attributed to a one-package registry. -/
theorem claim_C7_w :
    ∃ p ∈ [(⟨"a".toList, "a".toList⟩ : WorkspacePackage)],
      p.name = "a".toList ∧ p.source_path ≠ ['.'] :=
  claim_C7.2 ["a/x".toList] [⟨"a".toList, "a".toList⟩] none none "a".toList (by decide)

/-- C8: trigger-set default semantics. Omitting a trigger argument makes
the call equal to passing the fixed default sets explicitly; those
defaults are pyproject.toml and uv.lock for root triggers and .github/
for directory triggers; with both trigger sets explicitly empty no
changed file ever makes test_all true; and the same pyproject.toml file
does make test_all true under the defaults. -/
theorem claim_C8 :
    (∀ (cf : List PStr) (packages : List WorkspacePackage),
        map_files_to_packages cf packages none none =
          map_files_to_packages cf packages
            (some DEFAULT_ROOT_TRIGGERS) (some DEFAULT_DIR_TRIGGERS))
    ∧ DEFAULT_ROOT_TRIGGERS = ["pyproject.toml".toList, "uv.lock".toList]
    ∧ DEFAULT_DIR_TRIGGERS = [".github/".toList]
    ∧ (∀ (cf : List PStr) (packages : List WorkspacePackage),
        (map_files_to_packages cf packages (some []) (some [])).2 = false)
    ∧ (map_files_to_packages ["pyproject.toml".toList] [] none none).2 = true := by
  refine ⟨fun cf packages => rfl, rfl, rfl, ?_, by decide⟩
  intro cf packages
  cases hb : (map_files_to_packages cf packages (some []) (some [])).2 with
  | false => rfl
  | true =>
    rw [map_eq_foldl] at hb
    rcases (map_foldl_snd _ _ _ cf _).mp hb with h | ⟨f, _, hf | ⟨t, ht, _⟩⟩
    · exact absurd h (by simp)
    · exact absurd hf (List.not_mem_nil f)
    · exact absurd ht (List.not_mem_nil t)

/-- C9: a directory trigger set containing the empty string makes every
changed file a trigger, so for any nonempty changed-file list and any
registry the mapper returns the empty direct set and test_all true. -/
theorem claim_C9 (cf : List PStr) (packages : List WorkspacePackage)
    (rts : Option (List PStr)) (dts : List PStr)
    (hmem : [] ∈ dts) (hne : cf ≠ []) :
    map_files_to_packages cf packages rts (some dts) = (∅, true) := by
  have htrig : ∀ f ∈ cf, isTrigger (rts.getD DEFAULT_ROOT_TRIGGERS) dts f :=
    fun f _ => Or.inr ⟨[], hmem, ⟨f, rfl⟩⟩
  rw [map_eq_foldl, Prod.ext_iff]
  constructor
  · exact map_foldl_fst_all_trigger _ _ _ cf _ htrig
  · rcases List.exists_cons_of_ne_nil hne with ⟨f, cf', rfl⟩
    exact (map_foldl_snd _ _ _ _ _).mpr
      (Or.inr ⟨f, List.mem_cons_self f cf', htrig f (List.mem_cons_self f cf')⟩)

/-- Witness for C9: a singleton changed-file list with the empty string
in the directory triggers. -/
theorem claim_C9_w :
    map_files_to_packages ["a".toList] [] none (some [[]]) = (∅, true) :=
  claim_C9 ["a".toList] [] none [[]] (by decide) (by decide)

/-- C10: soundness of the directly-changed set. Every name in the result
set names a package of the registry whose source_path is not "." and
whose source_path plus "/" is a prefix of some changed file; and the
empty changed-file list yields the empty set with test_all false. -/
theorem claim_C10 :
    (∀ (cf : List PStr) (packages : List WorkspacePackage)
        (rts dts : Option (List PStr)) (n : PStr),
        n ∈ (map_files_to_packages cf packages rts dts).1 →
        ∃ p ∈ packages, p.name = n ∧ p.source_path ≠ ['.'] ∧
          ∃ f ∈ cf, (p.source_path ++ ['/']) <+: f)
    ∧ (∀ (packages : List WorkspacePackage) (rts dts : Option (List PStr)),
        map_files_to_packages [] packages rts dts = (∅, false)) := by
  constructor
  · intro cf packages rts dts n h
    rw [map_eq_foldl] at h
    rcases map_foldl_fst_sound _ _ _ cf _ n h with h' | ⟨f, hf, p, hp, hn⟩
    · exact absurd h' (Finset.not_mem_empty n)
    · exact ⟨p, attributeFile_mem hp, hn, (attributeFile_matches hp).1,
        f, hf, (attributeFile_matches hp).2⟩
  · intro packages rts dts
    rfl

/-- Witness for C10: the soundness conjunct applied to a concrete
attribution. -/
theorem claim_C10_w :
    ∃ p ∈ [(⟨"core".toList, "packages/core".toList⟩ : WorkspacePackage)],
      p.name = "core".toList ∧ p.source_path ≠ ['.'] ∧
        ∃ f ∈ ["packages/core/src/x.py".toList],
          (p.source_path ++ ['/'] : PStr) <+: f :=
  claim_C10.1 ["packages/core/src/x.py".toList]
    [⟨"core".toList, "packages/core".toList⟩] none none "core".toList (by decide)

/-- No two adjacent slashes occur in the string. -/
def NoDoubleSlash (f : PStr) : Prop :=
  f.Chain' (fun a b => ¬(a = '/' ∧ b = '/'))

/-- A changed file path of the data model: a forward-slash separated
path relative to the repository root, i.e. a nonempty component list of
nonempty slash-free components joined by "/". -/
def ValidRelPath (f : PStr) : Prop :=
  ∃ cs : List PStr, cs ≠ [] ∧ (∀ c ∈ cs, c ≠ [] ∧ '/' ∉ c) ∧ f = joinComps cs

theorem joinComps_cons_cons (c d : PStr) (ds : List PStr) :
    joinComps (c :: d :: ds) = c ++ '/' :: joinComps (d :: ds) :=
  rfl

theorem chain'_of_no_slash {l : PStr} (h : '/' ∉ l) : NoDoubleSlash l := by
  induction l with
  | nil => exact List.chain'_nil
  | cons a t ih =>
    rw [NoDoubleSlash, List.chain'_cons']
    constructor
    · intro y _ hcon
      exact h (hcon.1 ▸ List.mem_cons_self a t)
    · exact ih (fun hm => h (List.mem_cons_of_mem a hm))

theorem joinComps_facts :
    ∀ cs : List PStr, cs ≠ [] → (∀ c ∈ cs, c ≠ [] ∧ '/' ∉ c) →
      joinComps cs ≠ [] ∧ (joinComps cs).head? ≠ some '/' ∧
        NoDoubleSlash (joinComps cs) := by
  intro cs
  induction cs with
  | nil => intro h; exact absurd rfl h
  | cons c cs ih =>
    intro _ hv
    rcases hv c (List.mem_cons_self c cs) with ⟨hc, hcs⟩
    cases cs with
    | nil =>
      refine ⟨hc, ?_, chain'_of_no_slash hcs⟩
      rcases List.exists_cons_of_ne_nil hc with ⟨a, t, rfl⟩
      simp only [joinComps, List.head?_cons]
      intro hcon
      injection hcon with hcon
      exact hcs (hcon ▸ List.mem_cons_self a t)
    | cons d ds =>
      have hv' : ∀ x ∈ d :: ds, x ≠ [] ∧ '/' ∉ x :=
        fun x hx => hv x (List.mem_cons_of_mem c hx)
      rcases ih (by simp) hv' with ⟨ih1, ih2, ih3⟩
      rcases List.exists_cons_of_ne_nil hc with ⟨a, t, rfl⟩
      rw [joinComps_cons_cons]
      refine ⟨by simp, ?_, ?_⟩
      · simp only [List.cons_append, List.head?_cons]
        intro hcon
        injection hcon with hcon
        exact hcs (hcon ▸ List.mem_cons_self a t)
      · rw [NoDoubleSlash, List.chain'_append]
        refine ⟨chain'_of_no_slash hcs, ?_, ?_⟩
        · rw [List.chain'_cons']
          refine ⟨?_, ih3⟩
          intro y hy hcon
          rw [Option.mem_def] at hy
          exact ih2 (hcon.2 ▸ hy)
        · intro x hx y hy hcon
          have hxm : x ∈ a :: t := List.mem_of_mem_getLast? hx
          exact hcs (hcon.1 ▸ hxm)

theorem ValidRelPath.head_ne {f : PStr} (h : ValidRelPath f) : f.head? ≠ some '/' := by
  rcases h with ⟨cs, h1, h2, rfl⟩
  exact (joinComps_facts cs h1 h2).2.1

theorem ValidRelPath.noDouble {f : PStr} (h : ValidRelPath f) : NoDoubleSlash f := by
  rcases h with ⟨cs, h1, h2, rfl⟩
  exact (joinComps_facts cs h1 h2).2.2

theorem relativize_self (cf : List PStr) (g : AbsPath) :
    relativize_to_workspace cf g g = cf := by
  simp [relativize_to_workspace]

theorem relativize_strip {g w : AbsPath} (cf : List PStr) (hne : w ≠ g)
    (hpre : g.components <+: w.components) :
    relativize_to_workspace cf g w =
      cf.filterMap
        (relOne (joinComps (w.components.drop g.components.length) ++ ['/'])
          (joinComps (w.components.drop g.components.length))) := by
  rw [relativize_to_workspace, if_neg hne, if_pos (isPrefixOf_true_iff.mpr hpre)]

theorem relativize_outside {g w : AbsPath} (cf : List PStr) (hne : w ≠ g)
    (hpre : ¬ g.components <+: w.components) :
    relativize_to_workspace cf g w = [] := by
  rw [relativize_to_workspace, if_neg hne]
  rw [if_neg]
  intro h
  exact hpre (isPrefixOf_true_iff.mp h)

theorem filterMap_sublist_map (g : PStr → Option PStr) :
    ∀ l : List PStr, (l.filterMap g).Sublist (l.map (fun a => (g a).getD a)) := by
  intro l
  induction l with
  | nil => simp
  | cons a l ih =>
    rw [List.filterMap_cons, List.map_cons]
    cases hg : g a with
    | some b =>
      simp only [hg, Option.getD_some]
      exact ih.cons₂ b
    | none =>
      simp only [hg, Option.getD_none]
      exact ih.cons a

theorem relOne_some {pws pfxS f o : PStr} (h : relOne pws pfxS f = some o) :
    (pws <+: f ∧ o = f.drop pws.length) ∨ (¬ pws <+: f ∧ f = pfxS ∧ o = ['.']) := by
  rw [relOne] at h
  by_cases h1 : pws.isPrefixOf f
  · rw [if_pos h1] at h
    injection h with h
    exact Or.inl ⟨isPrefixOf_true_iff.mp h1, h.symm⟩
  · rw [if_neg h1] at h
    by_cases h2 : f = pfxS
    · rw [if_pos h2] at h
      injection h with h
      refine Or.inr ⟨?_, h2, h.symm⟩
      intro hp
      exact h1 (isPrefixOf_true_iff.mpr hp)
    · rw [if_neg h2] at h
      exact absurd h (by simp)

/-- C3: relativizer postcondition. For changed-file lists made of
repo-root-relative paths of the data model, no returned path begins with
"/"; in the stripping case every returned path is the corresponding
input with the workspace path and the following "/" removed from the
front (or "." for the workspace path itself), so the stripped workspace
path is not retained; when the two roots are equal the output is exactly
the input; and otherwise the output is an order-preserving selection of
the per-file rewrites of the input, so surviving entries keep the input
order. -/
theorem claim_C3 (cf : List PStr) (git_root workspace_root : AbsPath)
    (hv : ∀ f ∈ cf, ValidRelPath f) :
    (∀ o ∈ relativize_to_workspace cf git_root workspace_root, o.head? ≠ some '/')
    ∧ (workspace_root ≠ git_root → git_root.components <+: workspace_root.components →
        ∀ o ∈ relativize_to_workspace cf git_root workspace_root,
          (joinComps (workspace_root.components.drop git_root.components.length) ++ ['/'])
              ++ o ∈ cf
            ∨ (o = ['.'] ∧
                joinComps (workspace_root.components.drop git_root.components.length) ∈ cf))
    ∧ (workspace_root = git_root →
        relativize_to_workspace cf git_root workspace_root = cf)
    ∧ (workspace_root ≠ git_root →
        (relativize_to_workspace cf git_root workspace_root).Sublist
          (cf.map (fun f =>
            ((relOne
              (joinComps (workspace_root.components.drop git_root.components.length) ++ ['/'])
              (joinComps (workspace_root.components.drop git_root.components.length)) f).getD
              f)))) := by
  refine ⟨?_, ?_, ?_, ?_⟩
  · intro o ho
    by_cases he : workspace_root = git_root
    · subst he
      rw [relativize_self] at ho
      exact (hv o ho).head_ne
    · by_cases hp : git_root.components <+: workspace_root.components
      · rw [relativize_strip cf he hp] at ho
        rcases List.mem_filterMap.mp ho with ⟨f, hf, hrel⟩
        rcases relOne_some hrel with ⟨h1, rfl⟩ | ⟨_, _, rfl⟩
        · have hfeq :
              (joinComps (workspace_root.components.drop git_root.components.length) ++ ['/'])
                ++ f.drop
                  (joinComps (workspace_root.components.drop git_root.components.length)
                    ++ ['/']).length = f :=
            pre_iff_eq_append.mp h1
          cases hod : f.drop
              (joinComps (workspace_root.components.drop git_root.components.length)
                ++ ['/']).length with
          | nil => simp
          | cons a o' =>
            rw [List.head?_cons]
            intro hcon
            injection hcon with hcon
            subst hcon
            have hch := (hv f hf).noDouble
            rw [← hfeq, hod, NoDoubleSlash, List.chain'_append] at hch
            refine hch.2.2 '/' ?_ '/' ?_ ⟨rfl, rfl⟩
            · rw [List.getLast?_concat]
              rfl
            · rw [List.head?_cons]
              rfl
        · intro hcon
          injection hcon with hcon
          exact absurd hcon (by decide)
      · rw [relativize_outside cf he hp] at ho
        exact absurd ho (List.not_mem_nil o)
  · intro hne hp o ho
    rw [relativize_strip cf hne hp] at ho
    rcases List.mem_filterMap.mp ho with ⟨f, hf, hrel⟩
    rcases relOne_some hrel with ⟨h1, rfl⟩ | ⟨_, hfe, rfl⟩
    · left
      rw [pre_iff_eq_append.mp h1]
      exact hf
    · right
      exact ⟨rfl, hfe ▸ hf⟩
  · intro he
    subst he
    exact relativize_self cf workspace_root
  · intro hne
    by_cases hp : git_root.components <+: workspace_root.components
    · rw [relativize_strip cf hne hp]
      exact filterMap_sublist_map _ cf
    · rw [relativize_outside cf hne hp]
      exact List.nil_sublist _

/-- Witness for C3: the head conjunct applied to the concrete path ws/x
relativized from the repo root r to the workspace root r/ws. -/
theorem claim_C3_w : ("x".toList : PStr).head? ≠ some '/' := by
  have hv : ∀ f ∈ ["ws/x".toList], ValidRelPath f := by
    intro f hf
    rw [List.mem_singleton] at hf
    subst hf
    exact ⟨[['w', 's'], ['x']], by decide, by decide, rfl⟩
  exact (claim_C3 ["ws/x".toList] ⟨["r".toList]⟩ ⟨["r".toList, "ws".toList]⟩ hv).1
    "x".toList (by decide)

/-- C4: relativizer stripping rule. With the workspace root a proper
descendant of the git root and p the workspace path relative to the git
root, a file equal to p followed by "/" and a remainder relativizes to
that remainder; a file equal to p exactly relativizes to "."; any other
file is dropped; the output is never longer than the input; and with
equal roots the input list is returned unchanged. -/
theorem claim_C4 (git_root workspace_root : AbsPath)
    (hpre : git_root.components <+: workspace_root.components)
    (hne : workspace_root ≠ git_root) :
    (∀ rest : PStr,
        relativize_to_workspace
          [joinComps (workspace_root.components.drop git_root.components.length)
            ++ '/' :: rest] git_root workspace_root = [rest])
    ∧ relativize_to_workspace
        [joinComps (workspace_root.components.drop git_root.components.length)]
        git_root workspace_root = [['.']]
    ∧ (∀ f : PStr,
        ¬ (joinComps (workspace_root.components.drop git_root.components.length)
            ++ ['/']) <+: f →
        f ≠ joinComps (workspace_root.components.drop git_root.components.length) →
        relativize_to_workspace [f] git_root workspace_root = [])
    ∧ (∀ (cf : List PStr) (g w : AbsPath),
        (relativize_to_workspace cf g w).length ≤ cf.length)
    ∧ (∀ (cf : List PStr) (g : AbsPath), relativize_to_workspace cf g g = cf) := by
  refine ⟨?_, ?_, ?_, ?_, relativize_self⟩
  · intro rest
    rw [relativize_strip _ hne hpre]
    rw [List.filterMap_cons]
    have h1 : ((joinComps (workspace_root.components.drop git_root.components.length)
        ++ ['/']).isPrefixOf
          (joinComps (workspace_root.components.drop git_root.components.length)
            ++ '/' :: rest)) = true := by
      rw [isPrefixOf_true_iff, List.append_cons _ '/' rest]
      exact ⟨rest, rfl⟩
    rw [relOne, if_pos h1, List.append_cons _ '/' rest, List.drop_left]
    rfl
  · rw [relativize_strip _ hne hpre, List.filterMap_cons]
    have h1 : ((joinComps (workspace_root.components.drop git_root.components.length)
        ++ ['/']).isPrefixOf
          (joinComps (workspace_root.components.drop git_root.components.length))) = false := by
      rw [Bool.eq_false_iff]
      intro hcon
      have := (isPrefixOf_true_iff.mp hcon).length_le
      simp at this
    rw [relOne, if_neg (by simp [h1]), if_pos rfl]
    rfl
  · intro f hnp hnef
    rw [relativize_strip _ hne hpre, List.filterMap_cons]
    have h1 : ((joinComps (workspace_root.components.drop git_root.components.length)
        ++ ['/']).isPrefixOf f) = false := by
      rw [Bool.eq_false_iff]
      intro hcon
      exact hnp (isPrefixOf_true_iff.mp hcon)
    rw [relOne, if_neg (by simp [h1]), if_neg hnef]
    rfl
  · intro cf g w
    by_cases he : w = g
    · subst he
      rw [relativize_self]
    · by_cases hp : g.components <+: w.components
      · rw [relativize_strip _ he hp]
        exact List.length_filterMap_le _ cf
      · rw [relativize_outside _ he hp]
        simp

/-- Witness for C4: the stripping conjunct applied to the file ws/x with
git root r and workspace root r/ws. -/
theorem claim_C4_w :
    relativize_to_workspace ["ws/x".toList] ⟨["r".toList]⟩ ⟨["r".toList, "ws".toList]⟩ =
      ["x".toList] :=
  (claim_C4 ⟨["r".toList]⟩ ⟨["r".toList, "ws".toList]⟩ (by decide) (by decide)).1 "x".toList

theorem pIn_iff (n h : PStr) : pIn n h = true ↔ n <:+: h := by
  rw [pIn, List.any_eq_true]
  constructor
  · rintro ⟨t, ht, hp⟩
    rw [List.mem_tails] at ht
    rw [isPrefixOf_true_iff] at hp
    exact List.infix_iff_prefix_suffix.mpr ⟨t, hp, ht⟩
  · intro hinf
    rcases List.infix_iff_prefix_suffix.mp hinf with ⟨t, hp, ht⟩
    exact ⟨t, (List.mem_tails _ _).mpr ht, isPrefixOf_true_iff.mpr hp⟩

theorem get_changed_files_unresolvable (base_ref : PStr) {res : CmdResult}
    (h0 : res.returncode ≠ 0)
    (hp : "unknown revision".toList <:+: pstrip res.stderr ∨
          "not a git repository".toList <:+: pstrip res.stderr) :
    get_changed_files base_ref res =
      .error (.UnresolvableRef (could_not_resolve_msg base_ref)) := by
  have hb : (pIn "unknown revision".toList (pstrip res.stderr) ||
      pIn "not a git repository".toList (pstrip res.stderr)) = true := by
    rcases hp with h | h
    · rw [(pIn_iff _ _).mpr h]
      rfl
    · rw [(pIn_iff _ _).mpr h, Bool.or_true]
  simp only [get_changed_files]
  rw [if_pos h0, if_pos hb]

theorem get_changed_files_failed (base_ref : PStr) {res : CmdResult}
    (h0 : res.returncode ≠ 0)
    (hp : ¬("unknown revision".toList <:+: pstrip res.stderr ∨
            "not a git repository".toList <:+: pstrip res.stderr)) :
    get_changed_files base_ref res =
      .error (.DiffFailed (git_diff_failed_msg (pstrip res.stderr))) := by
  rw [not_or] at hp
  have hb : (pIn "unknown revision".toList (pstrip res.stderr) ||
      pIn "not a git repository".toList (pstrip res.stderr)) = false := by
    rw [Bool.or_eq_false_iff]
    constructor
    · rw [Bool.eq_false_iff]
      intro hc
      exact hp.1 ((pIn_iff _ _).mp hc)
    · rw [Bool.eq_false_iff]
      intro hc
      exact hp.2 ((pIn_iff _ _).mp hc)
  simp only [get_changed_files]
  rw [if_pos h0, if_neg (by rw [hb]; exact Bool.false_ne_true)]

theorem get_changed_files_ok (base_ref : PStr) {res : CmdResult}
    (h0 : res.returncode = 0) :
    get_changed_files base_ref res =
      .ok ((pSplitLines (pstrip res.stdout)).filter (fun f => !f.isEmpty)) := by
  simp only [get_changed_files]
  rw [if_neg (by simp [h0])]

/-- C5: error taxonomy of the change extractor. An UnresolvableRef error
is produced exactly when the exit code is nonzero and the stripped
diagnostic stream contains "unknown revision" or "not a git repository";
its message carries both the hint to run git fetch and the hint to pass
a valid ref with --base; any other nonzero exit produces a DiffFailed
error whose message carries the diagnostic text verbatim; and a zero
exit produces the reported paths with blank lines filtered out: every
returned line is nonblank and every nonblank line is returned. -/
theorem claim_C5 (base_ref : PStr) (res : CmdResult) :
    ((∃ m, get_changed_files base_ref res = .error (.UnresolvableRef m)) ↔
      (res.returncode ≠ 0 ∧
        ("unknown revision".toList <:+: pstrip res.stderr ∨
          "not a git repository".toList <:+: pstrip res.stderr)))
    ∧ (∀ m, get_changed_files base_ref res = .error (.UnresolvableRef m) →
        "git fetch".toList <:+: m ∧ "--base with a valid ref".toList <:+: m)
    ∧ (res.returncode ≠ 0 →
        ¬("unknown revision".toList <:+: pstrip res.stderr ∨
          "not a git repository".toList <:+: pstrip res.stderr) →
        (get_changed_files base_ref res =
          .error (.DiffFailed (git_diff_failed_msg (pstrip res.stderr))) ∧
          pstrip res.stderr <:+: git_diff_failed_msg (pstrip res.stderr)))
    ∧ (res.returncode = 0 →
        get_changed_files base_ref res =
          .ok ((pSplitLines (pstrip res.stdout)).filter (fun f => !f.isEmpty)) ∧
        (∀ l ∈ (pSplitLines (pstrip res.stdout)).filter (fun f => !f.isEmpty), l ≠ []) ∧
        (∀ l ∈ pSplitLines (pstrip res.stdout), l ≠ [] →
          l ∈ (pSplitLines (pstrip res.stdout)).filter (fun f => !f.isEmpty))) := by
  have hmsg : ∀ m, get_changed_files base_ref res = .error (.UnresolvableRef m) →
      m = could_not_resolve_msg base_ref ∧ res.returncode ≠ 0 ∧
        ("unknown revision".toList <:+: pstrip res.stderr ∨
          "not a git repository".toList <:+: pstrip res.stderr) := by
    intro m hm
    by_cases h0 : res.returncode = 0
    · rw [get_changed_files_ok base_ref h0] at hm
      exact absurd hm (by simp)
    · by_cases hp : ("unknown revision".toList <:+: pstrip res.stderr ∨
          "not a git repository".toList <:+: pstrip res.stderr)
      · rw [get_changed_files_unresolvable base_ref h0 hp] at hm
        injection hm with hm
        injection hm with hm
        exact ⟨hm.symm, h0, hp⟩
      · rw [get_changed_files_failed base_ref h0 hp] at hm
        exact absurd hm (by simp)
  refine ⟨?_, ?_, ?_, ?_⟩
  · constructor
    · rintro ⟨m, hm⟩
      exact (hmsg m hm).2
    · rintro ⟨h0, hp⟩
      exact ⟨could_not_resolve_msg base_ref, get_changed_files_unresolvable base_ref h0 hp⟩
  · intro m hm
    rw [(hmsg m hm).1, could_not_resolve_msg]
    have h2 :
        ("\x27. Does the branch/ref exist? Try \x27git fetch\x27 or use --base with a valid ref.".toList : PStr)
          <:+:
          ("Could not resolve ref \x27".toList ++ base_ref ++
            "\x27. Does the branch/ref exist? Try \x27git fetch\x27 or use --base with a valid ref.".toList) :=
      (List.suffix_append _ _).isInfix
    exact ⟨List.IsInfix.trans (by decide) h2, List.IsInfix.trans (by decide) h2⟩
  · intro h0 hp
    refine ⟨get_changed_files_failed base_ref h0 hp, ?_⟩
    rw [git_diff_failed_msg]
    exact (List.suffix_append _ _).isInfix
  · intro h0
    refine ⟨get_changed_files_ok base_ref h0, ?_, ?_⟩
    · intro l hl
      have := (List.mem_filter.mp hl).2
      simpa using this
    · intro l hl hne
      exact List.mem_filter.mpr ⟨hl, by simpa using hne⟩

/-- Witness for C5: the DiffFailed conjunct applied to a nonzero exit
with diagnostic text matching neither marker. -/
theorem claim_C5_w :
    get_changed_files "main".toList ⟨1, [], "boom".toList⟩ =
      .error (.DiffFailed (git_diff_failed_msg (pstrip "boom".toList))) ∧
      pstrip "boom".toList <:+: git_diff_failed_msg (pstrip "boom".toList) :=
  (claim_C5 "main".toList ⟨1, [], "boom".toList⟩).2.2.1 (by decide) (by decide)
